import Mathlib

/-!
Verification of the DSP benchmark pipeline (square-wave generator, peaking-EQ
biquad cascade, buffer-size sweep harness) from `src/cpp/src/main.cc`.

The numeric pipeline is embedded shallowly: buffers are lists over a division
ring (instantiated at `ℚ` for executable checks and at `ℝ` for the
transcendental coefficient derivation), the generator state is the
`SquareWave` record, and each filter is a `Biquad` record carrying its five
coefficients and four state variables.  Machine `double` arithmetic is
idealized as exact field arithmetic, as the specification's formulas do.
-/

/-- `#define SAMPLE_RATE 48000.0` -/
def SAMPLE_RATE : ℚ := 48000

/-- `#define BUFFER_LEN_TESTS 13` -/
def BUFFER_LEN_TESTS : ℕ := 13

/-- `#define SAMPLE_COUNT 524288` -/
def SAMPLE_COUNT : ℕ := 524288

/-- `#define FILTER_COUNT 100` -/
def FILTER_COUNT : ℕ := 100

/-- State of the square-wave generator (`struct SquareWave`). -/
structure SquareWave where
  switch_samples : ℕ
  status : Bool
  progress : ℕ
deriving DecidableEq, Repr

/-- `switch_samples = round(SAMPLE_RATE / frequency / 2.0)` with a general
sample rate `fs` in place of the fixed macro, as the spec quantifies over
both. `round` is rounding to nearest (half away from zero agrees with
half-up on the positive arguments used). -/
def switch_samples_of (fs frequency : ℚ) : ℕ :=
  (round (fs / frequency / 2)).toNat

/-- The constructor `SquareWave(double frequency)`. -/
def SquareWave.init (frequency : ℚ) : SquareWave :=
  { switch_samples := switch_samples_of SAMPLE_RATE frequency
    status := false
    progress := 0 }

/-- `SquareWave::reset`. -/
def SquareWave.reset (sqw : SquareWave) : SquareWave :=
  { sqw with status := false, progress := 0 }

/-- `fill_buffer`: overwrite every slot of the buffer left to right;
before writing a slot, flip the level and restart the half-period counter
when `progress == switch_samples`; write `status ? 0.5 : -0.5`; increment
`progress`.  The input slot values are ignored (they are overwritten). -/
def fill_buffer {α : Type} [DivisionRing α] : List α → SquareWave → List α × SquareWave
  | [], sqw => ([], sqw)
  | _ :: rest, sqw =>
    let sqw1 := if sqw.progress = sqw.switch_samples then
        { sqw with progress := 0, status := !sqw.status } else sqw
    let v : α := if sqw1.status then 1 / 2 else -(1 / 2)
    let r := fill_buffer rest { sqw1 with progress := sqw1.progress + 1 }
    (v :: r.1, r.2)

/-- `struct Biquad`: five coefficients and the four recurrence state
variables (two past inputs, two past outputs). -/
structure Biquad (α : Type) where
  b0 : α
  b1 : α
  b2 : α
  a1 : α
  a2 : α
  x1 : α
  x2 : α
  y1 : α
  y2 : α
deriving DecidableEq, Repr

/-- `Biquad::reset`: zero the state, keep the coefficients. -/
def Biquad.reset {α : Type} [Zero α] (bq : Biquad α) : Biquad α :=
  { bq with x1 := 0, x2 := 0, y1 := 0, y2 := 0 }

/-- `reset_biquads`: reset every filter of the cascade. -/
def reset_biquads {α : Type} [Zero α] (biquads : List (Biquad α)) : List (Biquad α) :=
  biquads.map Biquad.reset

/-- `Biquad::peak_eq`: the Audio EQ Cookbook peaking-equalizer coefficient
derivation, normalized by `a0`; the state fields start at zero exactly as
the member initializers do. -/
noncomputable def peak_eq (fs f0 q db_gain : ℝ) : Biquad ℝ :=
  let A : ℝ := (10 : ℝ) ^ (db_gain / 40)
  let omega : ℝ := 2 * Real.pi * f0 / fs
  let alpha : ℝ := Real.sin omega / (2 * q)
  let a0 : ℝ := 1 + alpha / A
  { b0 := (1 + alpha * A) / a0
    b1 := (-2 * Real.cos omega) / a0
    b2 := (1 - alpha * A) / a0
    a1 := (-2 * Real.cos omega) / a0
    a2 := (1 - alpha / A) / a0
    x1 := 0
    x2 := 0
    y1 := 0
    y2 := 0 }

/-- Modelled from the spec: `A = 10^(db_gain / 40)` of the cookbook formula. -/
noncomputable def cookbook_A (db_gain : ℝ) : ℝ := (10 : ℝ) ^ (db_gain / 40)

/-- Modelled from the spec: `omega = 2·pi·f0/fs` of the cookbook formula. -/
noncomputable def cookbook_omega (fs f0 : ℝ) : ℝ := 2 * Real.pi * f0 / fs

/-- Modelled from the spec: `alpha = sin(omega) / (2q)` of the cookbook formula. -/
noncomputable def cookbook_alpha (fs f0 q : ℝ) : ℝ :=
  Real.sin (cookbook_omega fs f0) / (2 * q)

/-- Modelled from the spec: `a0 = 1 + alpha/A`, the normalizer folded into
the retained coefficients. -/
noncomputable def cookbook_a0 (fs f0 q db_gain : ℝ) : ℝ :=
  1 + cookbook_alpha fs f0 q / cookbook_A db_gain

/-- One step of the direct-form-I recurrence (the body of the `iir` loop,
called `process_sample` by the spec): compute
`y = b0·x + b1·x1 + b2·x2 - a1·y1 - a2·y2`, then shift the state. -/
def process_sample {α : Type} [Ring α] (x : α) (bq : Biquad α) : α × Biquad α :=
  let y := bq.b0 * x + bq.b1 * bq.x1 + bq.b2 * bq.x2 - bq.a1 * bq.y1 - bq.a2 * bq.y2
  (y, { bq with x2 := bq.x1, x1 := x, y2 := bq.y1, y1 := y })

/-- `iir`: run the recurrence over the buffer left to right, each output
overwriting its input slot, threading the filter state. -/
def iir {α : Type} [Ring α] : List α → Biquad α → List α × Biquad α
  | [], bq => ([], bq)
  | x :: rest, bq =>
    let y := bq.b0 * x + bq.b1 * bq.x1 + bq.b2 * bq.x2 - bq.a1 * bq.y1 - bq.a2 * bq.y2
    let r := iir rest { bq with x2 := bq.x1, x1 := x, y2 := bq.y1, y1 := y }
    (y :: r.1, r.2)

/-- Modelled from the spec: the buffer is processed left to right by a fold
that, for each slot in order, applies `process_sample` to the slot and the
current state, appends the output, and carries the updated state. -/
def iir_spec {α : Type} [Ring α] (buf : List α) (bq : Biquad α) : List α × Biquad α :=
  buf.foldl (fun acc x =>
    let p := process_sample x acc.2
    (acc.1 ++ [p.1], p.2)) ([], bq)

/-- The harness inner loop `for f: iir(buf, &biquads[f])`: each filter makes
a full pass over the buffer, in cascade order, threading each filter's
updated state. -/
def cascade_per_filter {α : Type} [Ring α] : List α → List (Biquad α) → List α × List (Biquad α)
  | buf, [] => (buf, [])
  | buf, bq :: rest =>
    let r := iir buf bq
    let c := cascade_per_filter r.1 rest
    (c.1, r.2 :: c.2)

/-- One sample pushed through the whole cascade, stage by stage. -/
def cascade_step {α : Type} [Ring α] : α → List (Biquad α) → α × List (Biquad α)
  | x, [] => (x, [])
  | x, bq :: rest =>
    let p := process_sample x bq
    let c := cascade_step p.1 rest
    (c.1, p.2 :: c.2)

/-- Modelled from the spec: full cascade per sample — each sample is passed
through every filter before the next sample is touched. -/
def cascade_per_sample {α : Type} [Ring α] : List α → List (Biquad α) → List α × List (Biquad α)
  | [], bqs => ([], bqs)
  | x :: rest, bqs =>
    let s := cascade_step x bqs
    let r := cascade_per_sample rest s.2
    (s.1 :: r.1, r.2)

/-- One generate-then-filter iteration of the harness inner loop on a buffer
of length `n`: fill the buffer from the generator, then apply the cascade.
Since `fill_buffer` overwrites every slot without reading it, the reused
buffer is modelled by a fresh zero buffer of the same length. -/
def gen_chunk {α : Type} [DivisionRing α] (n : ℕ) (sqw : SquareWave)
    (bqs : List (Biquad α)) : List α × SquareWave × List (Biquad α) :=
  let g := fill_buffer (List.replicate n (0 : α)) sqw
  let c := cascade_per_filter g.1 bqs
  (c.1, g.2, c.2)

/-- The harness inner loop: `k` successive generate-then-filter iterations
on a buffer of length `L`, generator and filter state persisting across
buffer boundaries; the concatenation of the processed buffers is returned
together with the final states. -/
def run_trial {α : Type} [DivisionRing α] (L : ℕ) :
    ℕ → SquareWave → List (Biquad α) → List α × SquareWave × List (Biquad α)
  | 0, sqw, bqs => ([], sqw, bqs)
  | k + 1, sqw, bqs =>
    let c := gen_chunk L sqw bqs
    let r := run_trial L k c.2.1 c.2.2
    (c.1 ++ r.1, r.2)

/-- The buffer lengths of the sweep: `for (l = 3; l < BUFFER_LEN_TESTS; l++)`
with `buffer_len = pow(2, l)`. -/
def buffer_lens : List ℕ :=
  (List.range' 3 (BUFFER_LEN_TESTS - 3)).map (fun l => 2 ^ l)

/-- `buffer_count = SAMPLE_COUNT / buffer_len` (integer, i.e. floor, division). -/
def buffer_count (L : ℕ) : ℕ := SAMPLE_COUNT / L

/-! ## Basic unfolding lemmas -/

theorem iir_nil {α : Type} [Ring α] (bq : Biquad α) : iir ([] : List α) bq = ([], bq) := rfl

theorem iir_cons {α : Type} [Ring α] (x : α) (xs : List α) (bq : Biquad α) :
    iir (x :: xs) bq
      = ((process_sample x bq).1 :: (iir xs (process_sample x bq).2).1,
         (iir xs (process_sample x bq).2).2) := rfl

theorem fill_buffer_nil {α : Type} [DivisionRing α] (sqw : SquareWave) :
    fill_buffer ([] : List α) sqw = ([], sqw) := rfl

theorem fill_buffer_cons {α : Type} [DivisionRing α] (x : α) (xs : List α) (sqw : SquareWave) :
    fill_buffer (x :: xs) sqw
      = (let sqw1 := if sqw.progress = sqw.switch_samples then
           { sqw with progress := 0, status := !sqw.status } else sqw
         ((if sqw1.status then (1 : α) / 2 else -(1 / 2))
            :: (fill_buffer xs { sqw1 with progress := sqw1.progress + 1 }).1,
          (fill_buffer xs { sqw1 with progress := sqw1.progress + 1 }).2)) := rfl

/-! ## C1: the coefficient derivation matches the cookbook formula -/

/-- C1: for every sample rate `fs`, center frequency `f0`, quality factor
`q > 0` and gain `db_gain`, `peak_eq` returns exactly the normalized Audio
EQ Cookbook peaking coefficients: with `A = 10^(db_gain/40)`,
`omega = 2·pi·f0/fs`, `alpha = sin(omega)/(2q)` and `a0 = 1 + alpha/A` it
returns `b0 = (1 + alpha·A)/a0`, `b1 = (-2·cos(omega))/a0`,
`b2 = (1 - alpha·A)/a0`, `a2 = (1 - alpha/A)/a0`, and `a1` exactly equal to
`b1`; `a0` is folded into the others (the record retains no `a0` field) and
the filter state starts at zero. -/
theorem peak_eq_matches_cookbook (fs f0 q db_gain : ℝ) (hq : 0 < q) :
    (peak_eq fs f0 q db_gain).b0
        = (1 + cookbook_alpha fs f0 q * cookbook_A db_gain) / cookbook_a0 fs f0 q db_gain ∧
    (peak_eq fs f0 q db_gain).b1
        = (-2 * Real.cos (cookbook_omega fs f0)) / cookbook_a0 fs f0 q db_gain ∧
    (peak_eq fs f0 q db_gain).b2
        = (1 - cookbook_alpha fs f0 q * cookbook_A db_gain) / cookbook_a0 fs f0 q db_gain ∧
    (peak_eq fs f0 q db_gain).a2
        = (1 - cookbook_alpha fs f0 q / cookbook_A db_gain) / cookbook_a0 fs f0 q db_gain ∧
    (peak_eq fs f0 q db_gain).a1 = (peak_eq fs f0 q db_gain).b1 ∧
    (peak_eq fs f0 q db_gain).x1 = 0 ∧ (peak_eq fs f0 q db_gain).x2 = 0 ∧
    (peak_eq fs f0 q db_gain).y1 = 0 ∧ (peak_eq fs f0 q db_gain).y2 = 0 :=
  ⟨rfl, rfl, rfl, rfl, rfl, rfl, rfl, rfl, rfl⟩

/-- Witness for C1 at `fs = 48000`, `f0 = 50`, `q = 3/10`, `db_gain = 2`. -/
theorem peak_eq_matches_cookbook_witness :
    (0 : ℝ) < 3 / 10 ∧
      (peak_eq 48000 50 (3 / 10) 2).a1 = (peak_eq 48000 50 (3 / 10) 2).b1 :=
  ⟨by norm_num, (peak_eq_matches_cookbook 48000 50 (3 / 10) 2 (by norm_num)).2.2.2.2.1⟩

/-! ## C2: `iir` is the left-to-right per-slot recurrence -/

theorem iir_spec_fold {α : Type} [Ring α] (buf : List α) :
    ∀ (out : List α) (bq : Biquad α),
      buf.foldl (fun acc x =>
          let p := process_sample x acc.2
          (acc.1 ++ [p.1], p.2)) (out, bq)
        = (out ++ (iir buf bq).1, (iir buf bq).2) := by
  induction buf with
  | nil => intro out bq; simp [iir]
  | cons x rest ih =>
    intro out bq
    rw [List.foldl_cons, iir_cons]
    show List.foldl _ (out ++ [(process_sample x bq).1], (process_sample x bq).2) rest = _
    rw [ih]
    simp

/-- C2: for every buffer and every biquad, `iir` processes the buffer slots
left to right; for each slot with input `x` and prior state
`(x1, x2, y1, y2)` it overwrites the slot with
`y = b0·x + b1·x1 + b2·x2 - a1·y1 - a2·y2` and then shifts the state to
`x2 = x1`, `x1 = x`, `y2 = y1`, `y1 = y` — i.e. `iir` coincides (output and
final state) with the left fold that applies `process_sample` to each slot
in order. -/
theorem iir_processes_left_to_right {α : Type} [Ring α] (buf : List α) (bq : Biquad α) :
    iir buf bq = iir_spec buf bq := by
  unfold iir_spec
  rw [iir_spec_fold buf [] bq]
  simp

/-! ## Frame lemmas -/

theorem iir_length {α : Type} [Ring α] (buf : List α) :
    ∀ bq : Biquad α, (iir buf bq).1.length = buf.length := by
  induction buf with
  | nil => intro bq; rfl
  | cons x xs ih => intro bq; rw [iir_cons]; simp [ih]

theorem iir_coeffs {α : Type} [Ring α] (buf : List α) :
    ∀ bq : Biquad α,
      (iir buf bq).2.b0 = bq.b0 ∧ (iir buf bq).2.b1 = bq.b1 ∧
      (iir buf bq).2.b2 = bq.b2 ∧ (iir buf bq).2.a1 = bq.a1 ∧
      (iir buf bq).2.a2 = bq.a2 := by
  induction buf with
  | nil => intro bq; exact ⟨rfl, rfl, rfl, rfl, rfl⟩
  | cons x xs ih =>
    intro bq
    rw [iir_cons]
    exact ih (process_sample x bq).2

theorem fill_buffer_length {α : Type} [DivisionRing α] (buf : List α) :
    ∀ sqw : SquareWave, (fill_buffer buf sqw).1.length = buf.length := by
  induction buf with
  | nil => intro sqw; rfl
  | cons x xs ih => intro sqw; rw [fill_buffer_cons]; simp [ih]

theorem fill_buffer_switch {α : Type} [DivisionRing α] (buf : List α) :
    ∀ sqw : SquareWave, (fill_buffer buf sqw).2.switch_samples = sqw.switch_samples := by
  induction buf with
  | nil => intro sqw; rfl
  | cons x xs ih =>
    intro sqw
    rw [fill_buffer_cons]
    by_cases h : sqw.progress = sqw.switch_samples <;> simp [h, ih]

/-- C10: `iir` changes only the buffer's element values and the biquad's
state fields: the buffer's length and the coefficients `b0, b1, b2, a1, a2`
are unchanged; likewise `fill_buffer` changes only the buffer's element
values and the generator's `status` and `progress`, never the buffer's
length or `switch_samples`. -/
theorem iir_fill_frame_conditions {α : Type} [DivisionRing α] :
    (∀ (buf : List α) (bq : Biquad α),
      (iir buf bq).1.length = buf.length ∧
      (iir buf bq).2.b0 = bq.b0 ∧ (iir buf bq).2.b1 = bq.b1 ∧
      (iir buf bq).2.b2 = bq.b2 ∧ (iir buf bq).2.a1 = bq.a1 ∧
      (iir buf bq).2.a2 = bq.a2) ∧
    (∀ (buf : List α) (sqw : SquareWave),
      (fill_buffer buf sqw).1.length = buf.length ∧
      (fill_buffer buf sqw).2.switch_samples = sqw.switch_samples) :=
  ⟨fun buf bq => ⟨iir_length buf bq, iir_coeffs buf bq⟩,
   fun buf sqw => ⟨fill_buffer_length buf sqw, fill_buffer_switch buf sqw⟩⟩

/-! ## C6: full cascade per sample agrees with full buffer pass per filter -/

theorem cascade_per_sample_nil_filters {α : Type} [Ring α] (buf : List α) :
    cascade_per_sample buf ([] : List (Biquad α)) = (buf, []) := by
  induction buf with
  | nil => rfl
  | cons x xs ih => simp [cascade_per_sample, cascade_step, ih]

theorem cascade_per_sample_cons_filter {α : Type} [Ring α] (buf : List α) :
    ∀ (bq : Biquad α) (rest : List (Biquad α)),
      cascade_per_sample buf (bq :: rest)
        = ((cascade_per_sample (iir buf bq).1 rest).1,
           (iir buf bq).2 :: (cascade_per_sample (iir buf bq).1 rest).2) := by
  induction buf with
  | nil => intro bq rest; simp [cascade_per_sample, iir]
  | cons x xs ih =>
    intro bq rest
    rw [iir_cons]
    show cascade_per_sample (x :: xs) (bq :: rest) = _
    have lhs : cascade_per_sample (x :: xs) (bq :: rest)
        = ((cascade_step x (bq :: rest)).1
             :: (cascade_per_sample xs (cascade_step x (bq :: rest)).2).1,
           (cascade_per_sample xs (cascade_step x (bq :: rest)).2).2) := rfl
    rw [lhs]
    have hstep : cascade_step x (bq :: rest)
        = ((cascade_step (process_sample x bq).1 rest).1,
           (process_sample x bq).2 :: (cascade_step (process_sample x bq).1 rest).2) := rfl
    rw [hstep]
    rw [ih (process_sample x bq).2 (cascade_step (process_sample x bq).1 rest).2]
    show _ = (((cascade_per_sample ((process_sample x bq).1
          :: (iir xs (process_sample x bq).2).1) rest)).1,
        (iir xs (process_sample x bq).2).2
          :: ((cascade_per_sample ((process_sample x bq).1
                :: (iir xs (process_sample x bq).2).1) rest)).2)
    have rhs : cascade_per_sample ((process_sample x bq).1
          :: (iir xs (process_sample x bq).2).1) rest
        = ((cascade_step (process_sample x bq).1 rest).1
             :: (cascade_per_sample (iir xs (process_sample x bq).2).1
                   (cascade_step (process_sample x bq).1 rest).2).1,
           (cascade_per_sample (iir xs (process_sample x bq).2).1
                   (cascade_step (process_sample x bq).1 rest).2).2) := rfl
    rw [rhs]

/-- C6: for every buffer and every ordered sequence of biquad states,
passing each sample through the full cascade of filters before touching the
next sample yields exactly the same final buffer contents and final filter
states as applying each filter as a full pass over the whole buffer, filter
by filter in cascade order (the iteration order of the harness inner loop). -/
theorem cascade_per_sample_eq_per_filter {α : Type} [Ring α]
    (buf : List α) (bqs : List (Biquad α)) :
    cascade_per_sample buf bqs = cascade_per_filter buf bqs := by
  induction bqs generalizing buf with
  | nil => rw [cascade_per_sample_nil_filters]; rfl
  | cons bq rest ih =>
    rw [cascade_per_sample_cons_filter, ih (iir buf bq).1]
    rfl

/-! ## C5: state continuity across buffer boundaries -/

theorem fill_buffer_append {α : Type} [DivisionRing α] (b1 : List α) :
    ∀ (b2 : List α) (sqw : SquareWave),
      fill_buffer (b1 ++ b2) sqw
        = ((fill_buffer b1 sqw).1 ++ (fill_buffer b2 (fill_buffer b1 sqw).2).1,
           (fill_buffer b2 (fill_buffer b1 sqw).2).2) := by
  induction b1 with
  | nil => intro b2 sqw; simp [fill_buffer_nil]
  | cons x xs ih =>
    intro b2 sqw
    rw [List.cons_append, fill_buffer_cons, fill_buffer_cons]
    simp only []
    rw [ih]
    rfl

theorem iir_append {α : Type} [Ring α] (b1 : List α) :
    ∀ (b2 : List α) (bq : Biquad α),
      iir (b1 ++ b2) bq
        = ((iir b1 bq).1 ++ (iir b2 (iir b1 bq).2).1, (iir b2 (iir b1 bq).2).2) := by
  induction b1 with
  | nil => intro b2 bq; simp [iir_nil]
  | cons x xs ih =>
    intro b2 bq
    rw [List.cons_append, iir_cons, iir_cons]
    simp only []
    rw [ih]
    rfl

theorem cascade_per_filter_append {α : Type} [Ring α] (bqs : List (Biquad α)) :
    ∀ (b1 b2 : List α),
      cascade_per_filter (b1 ++ b2) bqs
        = ((cascade_per_filter b1 bqs).1
             ++ (cascade_per_filter b2 (cascade_per_filter b1 bqs).2).1,
           (cascade_per_filter b2 (cascade_per_filter b1 bqs).2).2) := by
  induction bqs with
  | nil => intro b1 b2; rfl
  | cons bq rest ih =>
    intro b1 b2
    show ((cascade_per_filter (iir (b1 ++ b2) bq).1 rest).1,
          (iir (b1 ++ b2) bq).2 :: (cascade_per_filter (iir (b1 ++ b2) bq).1 rest).2) = _
    rw [iir_append]
    simp only []
    rw [ih]
    rfl

theorem cascade_per_filter_nil_buf {α : Type} [Ring α] (bqs : List (Biquad α)) :
    cascade_per_filter ([] : List α) bqs = ([], bqs) := by
  induction bqs with
  | nil => rfl
  | cons bq rest ih =>
    show ((cascade_per_filter (iir ([] : List α) bq).1 rest).1,
          (iir ([] : List α) bq).2 :: (cascade_per_filter (iir ([] : List α) bq).1 rest).2) = _
    rw [iir_nil]
    simp only []
    rw [ih]

theorem gen_chunk_add {α : Type} [DivisionRing α] (L M : ℕ) (sqw : SquareWave)
    (bqs : List (Biquad α)) :
    gen_chunk (L + M) sqw bqs
      = ((gen_chunk L sqw bqs).1
           ++ (gen_chunk M (gen_chunk L sqw bqs).2.1 (gen_chunk L sqw bqs).2.2).1,
         (gen_chunk M (gen_chunk L sqw bqs).2.1 (gen_chunk L sqw bqs).2.2).2) := by
  unfold gen_chunk
  simp only []
  rw [List.replicate_add, fill_buffer_append, cascade_per_filter_append]

theorem run_trial_eq_gen_chunk {α : Type} [DivisionRing α] (L : ℕ) :
    ∀ (k : ℕ) (sqw : SquareWave) (bqs : List (Biquad α)),
      run_trial L k sqw bqs = gen_chunk (k * L) sqw bqs := by
  intro k
  induction k with
  | zero =>
    intro sqw bqs
    rw [Nat.zero_mul]
    show ([], sqw, bqs) = gen_chunk 0 sqw bqs
    unfold gen_chunk
    rw [List.replicate_zero, fill_buffer_nil]
    simp only []
    rw [cascade_per_filter_nil_buf]
  | succ k ih =>
    intro sqw bqs
    show ((gen_chunk L sqw bqs).1
            ++ (run_trial L k (gen_chunk L sqw bqs).2.1 (gen_chunk L sqw bqs).2.2).1,
          (run_trial L k (gen_chunk L sqw bqs).2.1 (gen_chunk L sqw bqs).2.2).2) = _
    rw [ih]
    have hmul : (k + 1) * L = L + k * L := by ring
    rw [hmul, gen_chunk_add]

/-- C5: for every total sample budget `T` and buffer length `L` with `L`
dividing `T`, running the generator plus cascade over one buffer of length
`T` produces, from equal initial states, exactly the same concatenated
output samples and the same final generator and filter states as running it
across `T / L` successive buffers of length `L` — generator and filter
state persist across buffer boundaries within a trial. -/
theorem chunked_run_eq_single_run {α : Type} [DivisionRing α] (T L : ℕ)
    (sqw : SquareWave) (bqs : List (Biquad α)) (hdvd : L ∣ T) :
    run_trial T 1 sqw bqs = run_trial L (T / L) sqw bqs := by
  rw [run_trial_eq_gen_chunk, run_trial_eq_gen_chunk, one_mul, Nat.div_mul_cancel hdvd]

/-- Witness for C5: one 4-sample buffer versus two 2-sample buffers, on a
concrete generator state and a concrete one-filter cascade over `ℚ`. -/
theorem chunked_run_eq_single_run_witness :
    (2 : ℕ) ∣ 4 ∧
      run_trial 4 1 ⟨2, false, 0⟩ ([⟨1, 2, 3, 4, 5, 0, 0, 0, 0⟩] : List (Biquad ℚ))
        = run_trial 2 2 ⟨2, false, 0⟩ ([⟨1, 2, 3, 4, 5, 0, 0, 0, 0⟩] : List (Biquad ℚ)) :=
  ⟨⟨2, rfl⟩,
   chunked_run_eq_single_run 4 2 ⟨2, false, 0⟩
     ([⟨1, 2, 3, 4, 5, 0, 0, 0, 0⟩] : List (Biquad ℚ)) ⟨2, rfl⟩⟩

/-! ## C3: the buffer-length sweep -/

theorem cascade_per_filter_length {α : Type} [Ring α] (bqs : List (Biquad α)) :
    ∀ buf : List α, (cascade_per_filter buf bqs).1.length = buf.length := by
  induction bqs with
  | nil => intro buf; rfl
  | cons bq rest ih =>
    intro buf
    show (cascade_per_filter (iir buf bq).1 rest).1.length = _
    rw [ih, iir_length]

theorem gen_chunk_length {α : Type} [DivisionRing α] (n : ℕ) (sqw : SquareWave)
    (bqs : List (Biquad α)) : (gen_chunk n sqw bqs).1.length = n := by
  show (cascade_per_filter (fill_buffer (List.replicate n (0 : α)) sqw).1 bqs).1.length = n
  rw [cascade_per_filter_length, fill_buffer_length, List.length_replicate]

theorem run_trial_length {α : Type} [DivisionRing α] (L : ℕ) :
    ∀ (k : ℕ) (sqw : SquareWave) (bqs : List (Biquad α)),
      (run_trial L k sqw bqs).1.length = k * L := by
  intro k
  induction k with
  | zero => intro sqw bqs; simp [run_trial]
  | succ k ih =>
    intro sqw bqs
    show ((gen_chunk L sqw bqs).1
            ++ (run_trial L k (gen_chunk L sqw bqs).2.1 (gen_chunk L sqw bqs).2.2).1).length = _
    rw [List.length_append, gen_chunk_length, ih]
    ring

/-- Counterexample to C3: the sweep does not run 9 trials over the lengths
8 … 2048; it has 10 entries and includes the length 4096 (so the exclusive
upper bound 4096 claimed by the spec is wrong: `l` runs from 3 up to
`BUFFER_LEN_TESTS = 13` exclusive, so the last length is `2^12 = 4096`). -/
theorem sweep_not_nine_trials :
    buffer_lens ≠ [8, 16, 32, 64, 128, 256, 512, 1024, 2048] ∧
    buffer_lens.length = 10 ∧ (4096 : ℕ) ∈ buffer_lens := by decide

/-- C3 (amended): the buffer-length sweep runs exactly 10 trials, one for
each power-of-two buffer length 8, 16, …, 2048, 4096 (strictly below 8192),
and within each trial the generate-then-filter inner loop runs exactly
`floor(SAMPLE_COUNT / L)` times for buffer length `L` — observably, running
the trial at length `L` produces exactly `(SAMPLE_COUNT / L) · L` output
samples. -/
theorem sweep_ten_trials_and_iteration_count :
    buffer_lens = [8, 16, 32, 64, 128, 256, 512, 1024, 2048, 4096] ∧
    ∀ (L : ℕ) (sqw : SquareWave) (bqs : List (Biquad ℚ)),
      (run_trial L (buffer_count L) sqw bqs).1.length = SAMPLE_COUNT / L * L := by
  constructor
  · decide
  · intro L sqw bqs
    rw [run_trial_length]
    rfl

/-! ## C4: closed form of the generated square wave -/

theorem fill_buffer_cons_flip {α : Type} [DivisionRing α] (x : α) (xs : List α) (s : ℕ)
    (b : Bool) :
    fill_buffer (x :: xs) (SquareWave.mk s b s)
      = ((if !b then (1 : α) / 2 else -(1 / 2))
           :: (fill_buffer xs (SquareWave.mk s (!b) 1)).1,
         (fill_buffer xs (SquareWave.mk s (!b) 1)).2) := by
  rw [fill_buffer_cons]
  simp

theorem fill_buffer_cons_go {α : Type} [DivisionRing α] (x : α) (xs : List α) (s p : ℕ)
    (b : Bool) (h : p ≠ s) :
    fill_buffer (x :: xs) (SquareWave.mk s b p)
      = ((if b then (1 : α) / 2 else -(1 / 2))
           :: (fill_buffer xs (SquareWave.mk s b (p + 1))).1,
         (fill_buffer xs (SquareWave.mk s b (p + 1))).2) := by
  rw [fill_buffer_cons]
  simp [h]

/-- From any state with `progress ≤ switch_samples` and a positive half
period, the `j`-th generated sample is high exactly when the number of
level flips so far, `(j + progress) / switch_samples`, is odd relative to
the current level. -/
theorem fill_buffer_closed (buf : List ℚ) :
    ∀ (s p : ℕ) (b : Bool), 1 ≤ s → p ≤ s →
      (fill_buffer buf (SquareWave.mk s b p)).1
        = (List.range buf.length).map (fun j =>
            if Bool.xor b (decide ((j + p) / s % 2 = 1)) then (1 : ℚ) / 2 else -(1 / 2)) := by
  induction buf with
  | nil => intros; rfl
  | cons x xs ih =>
    intro s p b hs hp
    simp only [List.length_cons, List.range_succ_eq_map, List.map_cons, List.map_map]
    by_cases hps : p = s
    · subst hps
      rw [fill_buffer_cons_flip]
      refine congrArg₂ List.cons ?_ ?_
      · have hd : p / p % 2 = 1 := by
          rw [Nat.div_self hs]
        cases b <;> simp [hd]
      · rw [ih p 1 (!b) hs hs]
        refine List.map_congr_left ?_
        intro j hj
        have hdiv : (j + 1 + p) / p = (j + 1) / p + 1 := Nat.add_div_right _ hs
        simp only [Function.comp_apply, hdiv]
        rcases Nat.mod_two_eq_zero_or_one ((j + 1) / p) with hm | hm
        · have hm1 : ((j + 1) / p + 1) % 2 = 1 := by omega
          simp [hm, hm1]
        · have hm1 : ((j + 1) / p + 1) % 2 = 0 := by omega
          simp [hm, hm1]
    · have hlt : p < s := lt_of_le_of_ne hp hps
      rw [fill_buffer_cons_go _ _ _ _ _ hps]
      refine congrArg₂ List.cons ?_ ?_
      · have hd : p / s % 2 = 0 := by
          rw [Nat.div_eq_of_lt hlt]
        cases b <;> simp [hd]
      · rw [ih s (p + 1) b hs hlt]
        refine List.map_congr_left ?_
        intro j hj
        have harith : j + 1 + p = j + (p + 1) := by omega
        simp only [Function.comp_apply, harith]

/-- C4: for every frequency `f > 0` and sample rate `fs > 2f`, the generator
after reset writes only the values `+0.5` and `-0.5`: with
`s = round(fs/f/2) ≥ 1` samples per half period, the `j`-th generated sample
is `-0.5` when `(j / s) % 2 = 0` and `+0.5` when `(j / s) % 2 = 1` — i.e.
the level starts low and the signal alternates in strict runs of `s`
samples, giving a period of `2·s` samples.  Instantiated at `f = 50`,
`fs = 48000` (where `s = 480`) this gives: samples `0 … 479` are `-0.5`,
samples `480 … 959` are `+0.5`, and sample `960` is `-0.5` again. -/
theorem square_wave_closed_form (fs f : ℚ) (sqw : SquareWave)
    (hf : 0 < f) (hfs : 2 * f < fs)
    (hsw : sqw.switch_samples = switch_samples_of fs f) :
    1 ≤ switch_samples_of fs f ∧
    ∀ n : ℕ,
      (fill_buffer (List.replicate n (0 : ℚ)) sqw.reset).1
        = (List.range n).map (fun j =>
            if j / switch_samples_of fs f % 2 = 1 then (1 : ℚ) / 2 else -(1 / 2)) := by
  have hq : (1 : ℚ) < fs / f / 2 := by
    rw [lt_div_iff₀ (by norm_num : (0 : ℚ) < 2), one_mul, lt_div_iff₀ hf]
    linarith
  have hs1 : 1 ≤ switch_samples_of fs f := by
    have h1 : (1 : ℤ) ≤ round (fs / f / 2) := by
      rw [round_eq, Int.le_floor]
      push_cast
      linarith
    unfold switch_samples_of
    omega
  have hr : sqw.reset = SquareWave.mk (switch_samples_of fs f) false 0 := by
    rw [show sqw.reset = SquareWave.mk sqw.switch_samples false 0 from rfl, hsw]
  refine ⟨hs1, fun n => ?_⟩
  rw [hr, fill_buffer_closed (List.replicate n 0) (switch_samples_of fs f) 0 false hs1
    (Nat.zero_le _)]
  simp only [List.length_replicate]
  refine List.map_congr_left ?_
  intro j hj
  simp

/-- Witness for C4: the spec's end-to-end scenario `f = 50`, `fs = 48000`,
`s = 480`, on the first `961` generated samples after a reset. -/
theorem square_wave_closed_form_witness :
    (0 : ℚ) < 50 ∧ 2 * (50 : ℚ) < 48000 ∧ switch_samples_of 48000 50 = 480 ∧
    (fill_buffer (List.replicate 961 (0 : ℚ))
        (SquareWave.mk (switch_samples_of 48000 50) true 7).reset).1
      = (List.range 961).map (fun j =>
          if j / 480 % 2 = 1 then (1 : ℚ) / 2 else -(1 / 2)) := by
  have h480 : switch_samples_of 48000 50 = 480 := by
    norm_num [switch_samples_of, round_eq]
    rfl
  refine ⟨by norm_num, by norm_num, h480, ?_⟩
  have happ := (square_wave_closed_form 48000 50
    (SquareWave.mk (switch_samples_of 48000 50) true 7)
    (by norm_num) (by norm_num) rfl).2 961
  rw [happ, h480]

/-! ## C7: reset is equivalent to fresh construction -/

/-- C7: `SquareWave::reset` restores `(status = false, progress = 0)` exactly
as construction does, and `Biquad::reset` restores
`(x1, x2, y1, y2) = (0, 0, 0, 0)` exactly as construction does, with the
coefficients untouched; hence feeding any buffer to a reset generator or
filter produces output and final state identical to a freshly constructed
instance with the same parameters. -/
theorem reset_eq_fresh :
    (∀ sqw : SquareWave,
        sqw.reset = SquareWave.mk sqw.switch_samples false 0) ∧
    (∀ bq : Biquad ℝ,
        bq.reset = { bq with x1 := 0, x2 := 0, y1 := 0, y2 := 0 }) ∧
    (∀ (f : ℚ) (sqw : SquareWave),
        sqw.switch_samples = (SquareWave.init f).switch_samples →
        ∀ buf : List ℚ, fill_buffer buf sqw.reset = fill_buffer buf (SquareWave.init f)) ∧
    (∀ (fs f0 q g : ℝ) (bq : Biquad ℝ),
        bq.b0 = (peak_eq fs f0 q g).b0 → bq.b1 = (peak_eq fs f0 q g).b1 →
        bq.b2 = (peak_eq fs f0 q g).b2 → bq.a1 = (peak_eq fs f0 q g).a1 →
        bq.a2 = (peak_eq fs f0 q g).a2 →
        ∀ buf : List ℝ, iir buf bq.reset = iir buf (peak_eq fs f0 q g)) := by
  refine ⟨fun sqw => rfl, fun bq => rfl, ?_, ?_⟩
  · intro f sqw hsw buf
    have h : sqw.reset = SquareWave.init f := by
      rw [show sqw.reset = SquareWave.mk sqw.switch_samples false 0 from rfl, hsw]
      rfl
    rw [h]
  · intro fs f0 q g bq h0 h1 h2 h3 h4 buf
    have h : bq.reset = peak_eq fs f0 q g := by
      rw [show peak_eq fs f0 q g
          = Biquad.mk (peak_eq fs f0 q g).b0 (peak_eq fs f0 q g).b1 (peak_eq fs f0 q g).b2
              (peak_eq fs f0 q g).a1 (peak_eq fs f0 q g).a2 0 0 0 0 from rfl]
      cases bq
      rw [show Biquad.reset (Biquad.mk _ _ _ _ _ _ _ _ _)
          = Biquad.mk _ _ _ _ _ (0 : ℝ) 0 0 0 from rfl]
      simp only [Biquad.mk.injEq, eq_self_iff_true, and_true]
      exact ⟨h0, h1, h2, h3, h4⟩
    rw [h]

/-- Witness for C7: a reset generator at frequency 50 and a reset filter
with the parameters of the benchmark (`fs = 48000`, `f0 = 50`, `q = 0.3`,
`gain = 2 dB`) behave as freshly constructed ones on a concrete buffer. -/
theorem reset_eq_fresh_witness :
    fill_buffer [(0 : ℚ), 0] (SquareWave.init 50).reset
        = fill_buffer [(0 : ℚ), 0] (SquareWave.init 50) ∧
    iir [(1 : ℝ), 2] (peak_eq 48000 50 (3 / 10) 2).reset
        = iir [(1 : ℝ), 2] (peak_eq 48000 50 (3 / 10) 2) :=
  ⟨reset_eq_fresh.2.2.1 50 (SquareWave.init 50) rfl [0, 0],
   reset_eq_fresh.2.2.2 48000 50 (3 / 10) 2 (peak_eq 48000 50 (3 / 10) 2)
     rfl rfl rfl rfl rfl [1, 2]⟩

/-! ## C8: zero gain collapses the peaking filter to the identity -/

theorem iir_id_aux {α : Type} [CommRing α] (buf : List α) :
    ∀ bq : Biquad α, bq.b0 = 1 → bq.b1 = bq.a1 → bq.b2 = bq.a2 →
      bq.x1 = bq.y1 → bq.x2 = bq.y2 → (iir buf bq).1 = buf := by
  induction buf with
  | nil => intros; rfl
  | cons x xs ih =>
    intro bq h0 h1 h2 hx1 hx2
    rw [iir_cons]
    have hy : (process_sample x bq).1 = x := by
      simp only [process_sample]
      rw [h0, h1, h2, hx1, hx2]
      ring
    show (process_sample x bq).1 :: (iir xs (process_sample x bq).2).1 = x :: xs
    rw [hy]
    refine congrArg (List.cons x) (ih _ ?_ ?_ ?_ ?_ ?_)
    · exact h0
    · exact h1
    · exact h2
    · exact hy.symm
    · exact hx1

theorem peak_eq_zero_gain_coeffs (fs f0 q : ℝ) (h : cookbook_a0 fs f0 q 0 ≠ 0) :
    (peak_eq fs f0 q 0).b0 = 1 ∧
    (peak_eq fs f0 q 0).b1 = (peak_eq fs f0 q 0).a1 ∧
    (peak_eq fs f0 q 0).b2 = (peak_eq fs f0 q 0).a2 := by
  have hA : ((10 : ℝ) ^ ((0 : ℝ) / 40)) = 1 := by
    rw [zero_div, Real.rpow_zero]
  have hne : 1 + Real.sin (2 * Real.pi * f0 / fs) / (2 * q) ≠ 0 := by
    unfold cookbook_a0 cookbook_alpha cookbook_omega cookbook_A at h
    rw [hA, div_one] at h
    exact h
  refine ⟨?_, rfl, ?_⟩
  · show (1 + Real.sin (2 * Real.pi * f0 / fs) / (2 * q) * ((10 : ℝ) ^ ((0 : ℝ) / 40)))
        / (1 + Real.sin (2 * Real.pi * f0 / fs) / (2 * q) / ((10 : ℝ) ^ ((0 : ℝ) / 40))) = 1
    rw [hA, mul_one, div_one]
    exact div_self hne
  · show (1 - Real.sin (2 * Real.pi * f0 / fs) / (2 * q) * ((10 : ℝ) ^ ((0 : ℝ) / 40)))
        / (1 + Real.sin (2 * Real.pi * f0 / fs) / (2 * q) / ((10 : ℝ) ^ ((0 : ℝ) / 40)))
      = (1 - Real.sin (2 * Real.pi * f0 / fs) / (2 * q) / ((10 : ℝ) ^ ((0 : ℝ) / 40)))
        / (1 + Real.sin (2 * Real.pi * f0 / fs) / (2 * q) / ((10 : ℝ) ^ ((0 : ℝ) / 40)))
    rw [hA, mul_one, div_one]

/-- C8: for a biquad derived by `peak_eq` with `db_gain = 0` (so `A = 1`)
and zero initial state, filtering any finite input sequence returns the
input unchanged sample for sample: in exact real arithmetic `b0 = 1`,
`b1 = a1` and `b2 = a2`, so the filter is an identity pass-through.  The
hypothesis `a0 ≠ 0` states that the cookbook derivation is well defined
(real division by zero is outside the exact-arithmetic model); it holds for
every parameter set the program uses. -/
theorem zero_gain_identity (fs f0 q : ℝ) (h : cookbook_a0 fs f0 q 0 ≠ 0)
    (buf : List ℝ) : (iir buf (peak_eq fs f0 q 0)).1 = buf := by
  obtain ⟨h0, h1, h2⟩ := peak_eq_zero_gain_coeffs fs f0 q h
  exact iir_id_aux buf _ h0 h1 h2 rfl rfl

/-- Witness for C8 at `fs = 1`, `f0 = 0`, `q = 1` (where `omega = 0`,
`sin(omega) = 0`, `a0 = 1`). -/
theorem zero_gain_identity_witness :
    cookbook_a0 1 0 1 0 ≠ 0 ∧ (iir [(1 : ℝ), 2, -3] (peak_eq 1 0 1 0)).1 = [1, 2, -3] := by
  have h : cookbook_a0 1 0 1 0 = 1 := by
    unfold cookbook_a0 cookbook_alpha cookbook_omega cookbook_A
    norm_num [Real.sin_zero, Real.rpow_zero]
  refine ⟨?_, ?_⟩
  · rw [h]
    norm_num
  · exact zero_gain_identity 1 0 1 (by rw [h]; norm_num) [1, 2, -3]

/-! ## C9: the progress invariant -/

/-- Counterexample to C9 as stated: a generator state with
`switch_samples = 0` satisfies the invariant `progress ≤ switch_samples`
(`0 ≤ 0`), yet after one `fill_buffer` call its `progress` is `1 > 0`: the
loop body resets `progress` to `0` *and then increments it*, so `progress`
reaches `switch_samples + 1` whenever `switch_samples = 0`. -/
theorem progress_invariant_fails_at_zero :
    (SquareWave.mk 0 false 0).progress ≤ (SquareWave.mk 0 false 0).switch_samples ∧
    ¬ (fill_buffer [(0 : ℚ)] (SquareWave.mk 0 false 0)).2.progress
        ≤ (fill_buffer [(0 : ℚ)] (SquareWave.mk 0 false 0)).2.switch_samples := by
  decide

theorem fill_buffer_progress_le {α : Type} [DivisionRing α] (buf : List α) :
    ∀ (s p : ℕ) (b : Bool), 1 ≤ s → p ≤ s →
      (fill_buffer buf (SquareWave.mk s b p)).2.progress
        ≤ (fill_buffer buf (SquareWave.mk s b p)).2.switch_samples := by
  induction buf with
  | nil => intro s p b hs hp; exact hp
  | cons x xs ih =>
    intro s p b hs hp
    by_cases hps : p = s
    · subst hps
      rw [fill_buffer_cons_flip]
      exact ih p 1 (!b) hs hs
    · rw [fill_buffer_cons_go _ _ _ _ _ hps]
      exact ih s (p + 1) b hs (by omega)

/-- C9 (amended): the invariant `0 ≤ progress ≤ switch_samples` holds after
construction and after `reset()` for every generator, and it is preserved
by every `fill_buffer` call *provided `switch_samples ≥ 1`* (as holds for
every frequency the program can use); with `switch_samples = 0` one
`fill_buffer` call on a nonempty buffer drives `progress` to `1`, so the
unrestricted claim fails. (`0 ≤ progress` is automatic for the natural
number `progress`.) -/
theorem progress_invariant_preserved :
    (∀ f : ℚ, (SquareWave.init f).progress ≤ (SquareWave.init f).switch_samples) ∧
    (∀ sqw : SquareWave, sqw.reset.progress ≤ sqw.reset.switch_samples) ∧
    (∀ (buf : List ℚ) (s p : ℕ) (b : Bool), 1 ≤ s → p ≤ s →
      (fill_buffer buf (SquareWave.mk s b p)).2.progress
        ≤ (fill_buffer buf (SquareWave.mk s b p)).2.switch_samples) :=
  ⟨fun f => Nat.zero_le _, fun sqw => Nat.zero_le _,
   fun buf s p b hs hp => fill_buffer_progress_le buf s p b hs hp⟩

/-- Witness for C9 (amended) at `switch_samples = 1`, starting from reset
state, over a three-sample buffer. -/
theorem progress_invariant_preserved_witness :
    (1 : ℕ) ≤ 1 ∧ (0 : ℕ) ≤ 1 ∧
    (fill_buffer [(0 : ℚ), 0, 0] (SquareWave.mk 1 false 0)).2.progress
      ≤ (fill_buffer [(0 : ℚ), 0, 0] (SquareWave.mk 1 false 0)).2.switch_samples :=
  ⟨le_refl 1, Nat.zero_le 1,
   progress_invariant_preserved.2.2 [0, 0, 0] 1 0 false (le_refl 1) (Nat.zero_le 1)⟩
